import Mathlib

/-!
Verification development for the `quanta-clusters` viewer.

The repository's one source file has two pieces of nontrivial logic:

* `tokens_to_html` — the token-sequence-to-markup renderer (truncation,
  highlighting, newline-token handling, character escaping, and the
  tag-like-content security check);
* the cluster ranker — grouping sample indices by cluster label
  (`cluster_to_tokens`) and ranking the labels by descending group size
  (`new_index_old_index`).

We embed both directly from the source.  Tokens and markup are modelled as
`List Char` (a Python `str` is a sequence of characters); a token sequence is
a `List (List Char)`.  Cluster labels are an arbitrary type with decidable
equality (the data file holds integers; the spec allows integers or strings).
-/

namespace QuantaClusters

/-- The source's `newline_tokens = ['\n', '\r', '\r\n', '\v', '\f']`:
a list of *strings*, one of which (`'\r\n'`) has two characters. -/
def newline_tokens : List (List Char) :=
  [['\n'], ['\r'], ['\r', '\n'], ['\x0b'], ['\x0c']]

/-- The source's test `all([c in newline_tokens for c in token])`:
every character of the token, viewed as a one-character string,
is a member of `newline_tokens`. -/
def isNewlineToken (token : List Char) : Bool :=
  token.all (fun c => newline_tokens.contains [c])

/-- Python's single-character `str.replace`: `s.replace(c, r)` where the
pattern `c` is one character.  Each occurrence of `c` is replaced by `r`;
replacement text is not rescanned (with a one-character pattern this is
exactly a per-character substitution). -/
def pyReplaceChar (s : List Char) (c : Char) (r : List Char) : List Char :=
  s.flatMap (fun a => if a = c then r else [a])

/-- The source's escaping pass over a non-newline token, in source order:
`$` → `\$`, `&` → `&amp;`, `_` → `\_`, `*` → `\*`, backtick → backslash-backtick. -/
def escapeToken (t : List Char) : List Char :=
  pyReplaceChar
    (pyReplaceChar
      (pyReplaceChar
        (pyReplaceChar
          (pyReplaceChar t '$' ['\\', '$'])
          '&' "&amp;".toList)
        '_' ['\\', '_'])
      '*' ['\\', '*'])
    '`' ['\\', '`']

/-- Opening of a token cell: the fixed style text around the background color,
from the f-string in the source. -/
def spanOpen (bg : List Char) : List Char :=
  "<span style=\"border: 1px solid #DDD; background-color: ".toList
    ++ bg ++ "; white-space: pre-wrap;\">".toList

/-- Closing tag of a token cell. -/
def spanClose : List Char := "</span>".toList

/-- Source: `background_color = "white" if i != len(tokens) - 1 else "#FF9999"`. -/
def backgroundColor (i n : Nat) : List Char :=
  if i ≠ n - 1 then "white".toList else "#FF9999".toList

/-- One loop iteration's contribution to `html`: a newline token becomes a
single bordered cell holding `len(token)` copies of the `⏎` glyph followed by
`len(token)` literal `<br>` line breaks; any other token is escaped and put
in a bordered cell. -/
def renderToken (token : List Char) (bg : List Char) : List Char :=
  if isNewlineToken token then
    spanOpen bg ++ List.replicate token.length '⏎' ++ spanClose
      ++ (List.replicate token.length "<br>".toList).flatten
  else
    spanOpen bg ++ escapeToken token ++ spanClose

/-- Python's `tokens[-max_len:]`: the last `max_len` elements when
`max_len > 0`; for `max_len = 0` the slice `[-0:]` is `[0:]`, the whole list. -/
def takeLast (xs : List α) (n : Nat) : List α :=
  if n = 0 then xs else xs.drop (xs.length - n)

/-- The ellipsis marker emitted before a truncated sequence. -/
def ellipsisMarker : List Char := "<span>...</span>".toList

/-- The fixed placeholder returned when the scanned text contains `</`. -/
def securityPlaceholder : List Char :=
  "CONTEXT NOT LOADED FOR SECURITY REASONS SINCE IT CONTAINS HTML CODE (could contain javascript).".toList

/-- Python's substring test `pat in s`: `pat` occurs contiguously in `s`,
i.e. it is a prefix of some tail of `s`. -/
def containsSub (pat s : List Char) : Bool :=
  (List.range (s.length + 1)).any (fun i => pat.isPrefixOf (s.drop i))

/-- Number of (possibly overlapping) occurrences of `pat` in `s`: the number
of positions of `s` at which `pat` starts. -/
def countSub (pat s : List Char) : Nat :=
  ((List.range (s.length + 1)).filter (fun i => pat.isPrefixOf (s.drop i))).length

/-- Spec-side description of the escaping policy (§4.2 of the spec): each of
the five characters is replaced, independently of the others, by its escaped
form; every other character is kept.  The theorem for the escaping claim
shows the source's sequential replacement passes compute exactly this
per-character substitution. -/
def escCharSpec (c : Char) : List Char :=
  if c = '$' then ['\\', '$']
  else if c = '&' then "&amp;".toList
  else if c = '_' then ['\\', '_']
  else if c = '*' then ['\\', '*']
  else if c = '`' then ['\\', '`']
  else [c]

/-- The loop's `html` accumulation over the (already truncated) token list:
each token is rendered with the background for its position. -/
def renderBody (tokens : List (List Char)) : List Char :=
  (tokens.enum.map (fun p => renderToken p.2 (backgroundColor p.1 tokens.length))).flatten

/-- The loop's `txt` accumulation: the raw concatenation of the (already
truncated) tokens. -/
def renderTxt (tokens : List (List Char)) : List Char := tokens.flatten

/-- Translation of `tokens_to_html(tokens, max_len=150)` from the source.  The ellipsis is
emitted when the *original* length exceeds `max_len`; both the rendering loop
and the `txt` used by the `"</" in txt` security check run over the

*truncated* list `tokens[-max_len:]`. -/
def tokens_to_html (tokens : List (List Char)) (max_len : Nat) : List Char :=
  let html := if tokens.length > max_len then ellipsisMarker else []
  let kept := takeLast tokens max_len
  let html := html ++ renderBody kept
  let txt := renderTxt kept
  if containsSub "</".toList txt then securityPlaceholder else html

/-!
The cluster ranker.  The source builds

```
cluster_to_tokens = defaultdict(list)
for i, cluster_id in enumerate(labels_list):
    cluster_to_tokens[cluster_id].append(i)
new_index_old_index = {
    i: cluster_id
    for i, cluster_id in enumerate(
        sorted(cluster_to_tokens, key=lambda k: len(cluster_to_tokens[k]), reverse=True))}
```

A Python dict enumerates its keys in insertion order, so
`sorted(cluster_to_tokens, ...)` sorts the distinct labels in first-seen
order; `sorted` is a stable sort, and with `reverse=True` elements with equal
keys still keep their original relative order.  We model the group of a label
by `cluster_to_tokens` (its indices in increasing order), the dict's key
sequence by `firstSeen`, and the rank table by the sorted key list
(`new_index_old_index`), rank `i` being position `i`; descending stable
order is `mergeSort` with `le a b := size b ≤ size a`.
-/

variable {L : Type} [DecidableEq L]

/-- The list of sample indices assigned to label `l`, in increasing order:
the entry `cluster_to_tokens[l]` of the source's grouping dict. -/
def cluster_to_tokens (labels : List L) (l : L) : List Nat :=
  ((labels.enum).filter (fun p => p.2 = l)).map Prod.fst

/-- Size of the group of label `l`: `len(cluster_to_tokens[l])`. -/
def groupSize (labels : List L) (l : L) : Nat :=
  (cluster_to_tokens labels l).length

/-- The distinct labels in order of first appearance: the key sequence of the
source's insertion-ordered grouping dict. -/
def firstSeen (labels : List L) : List L :=
  labels.foldl (fun acc l => if acc.contains l then acc else acc ++ [l]) []

/-- The rank table: the distinct labels sorted stably by descending group
size; rank `i` is the label at position `i`. -/
def new_index_old_index (labels : List L) : List L :=
  (firstSeen labels).mergeSort
    (fun a b => decide (groupSize labels b ≤ groupSize labels a))

/-! ## Helper lemmas -/

/-- Every token cell, newline or not, begins with the opening `<`. -/
theorem renderToken_head (t bg : List Char) :
    ∃ r, renderToken t bg = '<' :: r := by
  unfold renderToken spanOpen
  split <;> exact ⟨_, rfl⟩

/-- A nonempty rendered body begins with the first token's cell, hence
with `<`. -/
theorem renderBody_cons_head (t : List Char) (ts : List (List Char)) :
    ∃ r, renderBody (t :: ts) = '<' :: r := by
  obtain ⟨r, hr⟩ := renderToken_head t (backgroundColor 0 (ts.length + 1))
  exact ⟨r ++ (List.map (fun p => renderToken p.2 (backgroundColor p.1 (ts.length + 1)))
      (List.enumFrom 1 ts)).flatten, by simp [renderBody, List.enum_cons, hr]⟩

/-- Python slicing: `tokens[-max_len:]` is empty only when the input itself is empty. -/
theorem takeLast_eq_nil {α : Type} {xs : List α} {n : Nat}
    (h : takeLast xs n = []) : xs = [] := by
  unfold takeLast at h
  split at h
  · exact h
  · rcases xs with _ | ⟨a, as⟩
    · rfl
    · exfalso
      have hlen := congrArg List.length h
      simp at hlen
      omega

/-- With a positive window size, `tokens[-max_len:]` is a `drop`. -/
theorem takeLast_eq_drop {α : Type} (xs : List α) {n : Nat} (hn : n ≠ 0) :
    takeLast xs n = xs.drop (xs.length - n) := by
  simp [takeLast, hn]

/-- A sequence no longer than the window is kept whole. -/
theorem takeLast_of_le {α : Type} {xs : List α} {n : Nat} (h : xs.length ≤ n) :
    takeLast xs n = xs := by
  unfold takeLast
  split
  · rfl
  · have : xs.length - n = 0 := by omega
    simp [this]

/-- A sequence longer than the window is cut to exactly `n` tokens. -/
theorem takeLast_length {α : Type} {xs : List α} {n : Nat}
    (hn : n ≠ 0) (h : n ≤ xs.length) : (takeLast xs n).length = n := by
  rw [takeLast_eq_drop xs hn]
  simp
  omega

/-- No markup string (ellipsis prefix or not) coincides with the security
placeholder: the placeholder starts with `C`, markup with `<` (or is empty). -/
theorem cons_ne_placeholder (r : List Char) : ('<' :: r) ≠ securityPlaceholder := by
  intro h
  have h2 : some '<' = securityPlaceholder.head? := congrArg List.head? h
  rw [show securityPlaceholder.head? = some 'C' from rfl] at h2
  exact absurd (Option.some.inj h2) (by decide)

/-- A character of an occurring pattern occurs in the scanned text. -/
theorem mem_of_containsSub {pat s : List Char} {c : Char}
    (h : containsSub pat s = true) (hc : c ∈ pat) : c ∈ s := by
  unfold containsSub at h
  rw [List.any_eq_true] at h
  obtain ⟨i, _, hpre⟩ := h
  have hp : pat <+: s.drop i := by rwa [List.isPrefixOf_iff_prefix] at hpre
  exact List.drop_subset i s (hp.subset hc)

/-- A token made of line-break characters cannot contain `</`:
it has no `<` at all. -/
theorem containsSub_eq_false_of_newline {t : List Char}
    (ht : isNewlineToken t = true) :
    containsSub "</".toList t = false := by
  by_contra h
  rw [Bool.not_eq_false] at h
  have hmem : '<' ∈ t := mem_of_containsSub h (by decide)
  have h2 := (List.all_eq_true.mp ht) '<' hmem
  simp [newline_tokens] at h2

/-- Unfolding of `tokens_to_html` with its `let` bindings expanded (definitional). -/
theorem tokens_to_html_eq (tokens : List (List Char)) (n : Nat) :
    tokens_to_html tokens n =
      if containsSub ['<', '/'] (renderTxt (takeLast tokens n)) = true
      then securityPlaceholder
      else (if tokens.length > n then ellipsisMarker else [])
        ++ renderBody (takeLast tokens n) := rfl

/-- Expansion of `spanOpen` character by character at the front: a token cell
opens with `<span ` (note the space), unlike the ellipsis marker `<span>`. -/
theorem spanOpen_expand (bg : List Char) :
    spanOpen bg = '<' :: 's' :: 'p' :: 'a' :: 'n' :: ' ' ::
      ("style=\"border: 1px solid #DDD; background-color: ".toList
        ++ bg ++ "; white-space: pre-wrap;\">".toList) := rfl

/-- Every token cell is the cell opening followed by the rest. -/
theorem renderToken_eq_spanOpen_append (t bg : List Char) :
    ∃ X, renderToken t bg = spanOpen bg ++ X := by
  unfold renderToken
  split
  · exact ⟨List.replicate t.length '⏎'
        ++ (spanClose ++ (List.replicate t.length "<br>".toList).flatten),
      by simp [List.append_assoc]⟩
  · exact ⟨escapeToken t ++ spanClose, by simp [List.append_assoc]⟩

/-- The ellipsis marker is never a prefix of a token cell's output. -/
theorem ellipsis_not_prefix_spanOpen (bg X : List Char) :
    ellipsisMarker.isPrefixOf (spanOpen bg ++ X) = false := by
  rw [spanOpen_expand]
  simp [ellipsisMarker, List.isPrefixOf]

/-- The ellipsis marker is never a prefix of the rendered body. -/
theorem ellipsis_not_prefix_renderBody (tokens : List (List Char)) :
    ellipsisMarker.isPrefixOf (renderBody tokens) = false := by
  rcases tokens with _ | ⟨t, ts⟩
  · decide
  · have hbody : renderBody (t :: ts) =
        renderToken t (backgroundColor 0 (ts.length + 1))
          ++ (List.map (fun p => renderToken p.2 (backgroundColor p.1 (ts.length + 1)))
              (List.enumFrom 1 ts)).flatten := by
      simp [renderBody, List.enum_cons]
    obtain ⟨X, hX⟩ := renderToken_eq_spanOpen_append t (backgroundColor 0 (ts.length + 1))
    rw [hbody, hX, List.append_assoc]
    exact ellipsis_not_prefix_spanOpen _ _

/-! ## Claim theorems -/

/-- C9: for the empty token sequence, `tokens_to_html` succeeds and returns
the empty (but valid) rendering — no token cells, no ellipsis marker — for
every window size; being a total function it has no error outcome besides
the content-withheld placeholder. -/
theorem render_empty_sequence (n : Nat) : tokens_to_html [] n = [] := by
  have h1 : takeLast ([] : List (List Char)) n = [] := by
    unfold takeLast; split <;> simp
  have h2 : containsSub ['<', '/'] [] = false := by decide
  simp [tokens_to_html, h1, renderBody, renderTxt, h2]

/-- C10: the empty-string token is classified as a newline token (the
all-characters test is vacuously true) and is emitted as a single bordered
cell with zero glyphs and zero line breaks, with no escaping applied; as a
full rendering it yields exactly one empty highlighted cell. -/
theorem render_empty_token (bg : List Char) :
    isNewlineToken [] = true
    ∧ renderToken [] bg = spanOpen bg ++ spanClose
    ∧ tokens_to_html [[]] 150 = spanOpen "#FF9999".toList ++ spanClose := by
  refine ⟨rfl, ?_, ?_⟩
  · simp [renderToken, isNewlineToken]
  · rfl

/-- C3 counterexample: on the empty assignment the ranker does not fail —
it returns the empty rank table and empty key sequence as a normal result,
refuting the claimed `InvalidInput` failure. -/
theorem ranker_empty_counterexample :
    new_index_old_index ([] : List Nat) = [] ∧ firstSeen ([] : List Nat) = [] :=
  ⟨by simp [new_index_old_index, firstSeen], rfl⟩

/-- C3 amended: the ranker has no input guard at all; on an empty assignment
it returns a normal result: the grouping is empty (every label has an empty
group) and the rank table is empty. -/
theorem ranker_total_on_empty (L : Type) [DecidableEq L] :
    new_index_old_index ([] : List L) = []
    ∧ firstSeen ([] : List L) = []
    ∧ ∀ l : L, cluster_to_tokens ([] : List L) l = [] := by
  refine ⟨?_, rfl, fun l => rfl⟩
  simp [new_index_old_index, firstSeen]

/-- C2 counterexample: the token `"\n\n"` renders as ONE bordered cell
containing both glyphs (a single `<span` occurrence), followed by two
literal line breaks — not as two bordered glyph cells. -/
theorem newline_pair_counterexample :
    tokens_to_html [['\n', '\n']] 150 =
      ("<span style=\"border: 1px solid #DDD; background-color: #FF9999; white-space: pre-wrap;\">⏎⏎</span><br><br>").toList
    ∧ countSub "<span".toList (tokens_to_html [['\n', '\n']] 150) = 1
    ∧ (1 : Nat) ≠ 2 :=
  ⟨rfl, by decide, by decide⟩

/-- C2 amended: a token consisting entirely of line-break characters is
rendered as a single bordered cell containing one line-break glyph per
character of the token, followed by that many literal line breaks; in a
one-token sequence it is the (highlighted) final cell. -/
theorem newline_token_one_cell (t bg : List Char) (n : Nat)
    (ht : isNewlineToken t = true) (hn : 0 < n) :
    renderToken t bg = spanOpen bg ++ List.replicate t.length '⏎' ++ spanClose
        ++ (List.replicate t.length "<br>".toList).flatten
    ∧ tokens_to_html [t] n = renderToken t ("#FF9999".toList) := by
  constructor
  · simp [renderToken, ht]
  · have hkept : takeLast [t] n = [t] := takeLast_of_le (by simpa using hn)
    have htxt : renderTxt [t] = t := by simp [renderTxt]
    have hsafe : containsSub ['<', '/'] (renderTxt [t]) = false := by
      rw [htxt]; exact containsSub_eq_false_of_newline ht
    have hlen : ¬ ([t] : List (List Char)).length > n := by simp; omega
    have hbg : backgroundColor 0 1 = "#FF9999".toList := rfl
    simp [tokens_to_html, hkept, hsafe, hlen, renderBody, hbg]
    omega

/-- Witness for the amended newline-token claim at the spec's own example
`"\n\n"`. -/
theorem newline_token_one_cell_witness :
    renderToken ['\n', '\n'] "white".toList =
        spanOpen "white".toList ++ List.replicate 2 '⏎' ++ spanClose
          ++ (List.replicate 2 "<br>".toList).flatten
    ∧ tokens_to_html [['\n', '\n']] 150 = renderToken ['\n', '\n'] ("#FF9999".toList) :=
  newline_token_one_cell ['\n', '\n'] "white".toList 150 (by decide) (by decide)

/-- C1 counterexample: the sequence `["</", "a"]` with window size 1 — the
raw concatenation of ALL original tokens contains `</`, yet the renderer
emits markup (ellipsis plus the rendered window), not the safe placeholder:
truncation bypasses the check, because the scanned text is accumulated
inside the loop that runs only over `tokens[-max_len:]`. -/
theorem security_bypass_counterexample :
    containsSub "</".toList (List.flatten ["</".toList, ['a']]) = true
    ∧ tokens_to_html ["</".toList, ['a']] 1 ≠ securityPlaceholder
    ∧ tokens_to_html ["</".toList, ['a']] 1 = ellipsisMarker ++ renderBody [['a']] :=
  ⟨by decide, by decide, rfl⟩

/-- C1 amended: `tokens_to_html` returns the fixed safe placeholder exactly
when the concatenation of the kept window `tokens[-max_len:]` contains the
substring `</`; a `</` occurring only in tokens dropped by truncation does
not trigger the check. -/
theorem render_security_scans_window (tokens : List (List Char)) (n : Nat) :
    tokens_to_html tokens n = securityPlaceholder
      ↔ containsSub "</".toList (renderTxt (takeLast tokens n)) = true := by
  show tokens_to_html tokens n = securityPlaceholder
      ↔ containsSub ['<', '/'] (renderTxt (takeLast tokens n)) = true
  rw [tokens_to_html_eq]
  cases hB : containsSub ['<', '/'] (renderTxt (takeLast tokens n))
  · simp only [Bool.false_eq_true, if_false, iff_false]
    rcases hk : takeLast tokens n with _ | ⟨t, ts⟩
    · have hx : tokens = [] := takeLast_eq_nil hk
      subst hx
      simp [renderBody]
      decide
    · obtain ⟨r, hr⟩ := renderBody_cons_head t ts
      rw [hr]
      by_cases hlen : tokens.length > n
      · rw [if_pos hlen]
        rw [show ellipsisMarker = '<' :: "span>...</span>".toList from rfl,
          List.cons_append]
        exact cons_ne_placeholder _
      · rw [if_neg hlen, List.nil_append]
        exact cons_ne_placeholder r
  · simp

/-- C4: with a positive window size, on the markup-emitting path (the spec's
security check short-circuits everything else, §7): a sequence longer than
`max_len` is rendered as the ellipsis marker followed by exactly the last
`max_len` tokens, and a sequence shorter than `max_len` is rendered whole,
with no ellipsis marker at the front of the output. -/
theorem render_truncation (tokens : List (List Char)) (n : Nat) (hn : 0 < n)
    (hsafe : containsSub "</".toList (renderTxt (takeLast tokens n)) = false) :
    (tokens.length > n →
        tokens_to_html tokens n
            = ellipsisMarker ++ renderBody (tokens.drop (tokens.length - n))
        ∧ (takeLast tokens n).length = n)
    ∧ (tokens.length < n →
        tokens_to_html tokens n = renderBody tokens
        ∧ ellipsisMarker.isPrefixOf (tokens_to_html tokens n) = false) := by
  have hn' : n ≠ 0 := by omega
  have hsafeB : containsSub ['<', '/'] (renderTxt (takeLast tokens n)) = false := hsafe
  have hsafeN : ¬ containsSub ['<', '/'] (renderTxt (takeLast tokens n)) = true := by
    simp [hsafeB]
  constructor
  · intro hlen
    have hdrop : takeLast tokens n = tokens.drop (tokens.length - n) :=
      takeLast_eq_drop tokens hn'
    refine ⟨?_, takeLast_length hn' (Nat.le_of_lt hlen)⟩
    rw [tokens_to_html_eq, if_neg hsafeN, if_pos hlen, hdrop]
  · intro hlen
    have hkeep : takeLast tokens n = tokens := takeLast_of_le (Nat.le_of_lt hlen)
    have hout : tokens_to_html tokens n = renderBody tokens := by
      rw [tokens_to_html_eq, if_neg hsafeN, if_neg (by omega), hkeep,
        List.nil_append]
    exact ⟨hout, hout ▸ ellipsis_not_prefix_renderBody tokens⟩

/-- Witness for the truncation claim: `["a", "b"]` with window size 1 is
rendered as the ellipsis marker followed by the window `["b"]` alone, and
the kept window has exactly 1 token. -/
theorem render_truncation_witness :
    tokens_to_html [['a'], ['b']] 1
        = ellipsisMarker ++ renderBody ([['a'], ['b']].drop 1)
    ∧ (takeLast [['a'], ['b']] 1).length = 1 :=
  (render_truncation [['a'], ['b']] 1 (by decide) (by decide)).1 (by decide)

/-- Replacement distributes over concatenation. -/
theorem escapeToken_append (s t : List Char) :
    escapeToken (s ++ t) = escapeToken s ++ escapeToken t := by
  simp [escapeToken, pyReplaceChar]

/-- On a single character the five sequential replacement passes compute the
spec's per-character substitution: the escaped forms introduced by one pass
contain none of the characters targeted by the later passes. -/
theorem escapeToken_single (c : Char) : escapeToken [c] = escCharSpec c := by
  by_cases h1 : c = '$'
  · subst h1; rfl
  by_cases h2 : c = '&'
  · subst h2; rfl
  by_cases h3 : c = '_'
  · subst h3; rfl
  by_cases h4 : c = '*'
  · subst h4; rfl
  by_cases h5 : c = '`'
  · subst h5; rfl
  simp [escapeToken, pyReplaceChar, escCharSpec, h1, h2, h3, h4, h5]

/-- The source's sequential replacement equals the spec's independent
per-character substitution. -/
theorem escapeToken_flatMap (t : List Char) :
    escapeToken t = t.flatMap escCharSpec := by
  induction t with
  | nil => rfl
  | cons c t ih =>
    show escapeToken ([c] ++ t) = (c :: t).flatMap escCharSpec
    rw [escapeToken_append, escapeToken_single, ih, List.flatMap_cons]

/-- C6: every rendered non-newline token is embedded with its characters
escaped: the cell holds `escapeToken` of the token, and `escapeToken`
replaces each occurrence of `$`, `&`, `_`, `*`, backtick by its escaped
form (and only those), character by character; the spec's two escaping
examples evaluate accordingly. -/
theorem render_escaping (t bg : List Char) (h : isNewlineToken t = false) :
    renderToken t bg = spanOpen bg ++ escapeToken t ++ spanClose
    ∧ escapeToken t = t.flatMap escCharSpec
    ∧ escapeToken "A_B*C".toList = "A\\_B\\*C".toList
    ∧ escapeToken "$$".toList = "\\$\\$".toList := by
  refine ⟨?_, escapeToken_flatMap t, by decide, by decide⟩
  simp [renderToken, h]

/-- Witness for the escaping claim at the spec's example token `"A_B*C"`. -/
theorem render_escaping_witness :
    renderToken "A_B*C".toList "white".toList
        = spanOpen "white".toList ++ escapeToken "A_B*C".toList ++ spanClose
    ∧ escapeToken "A_B*C".toList = ("A_B*C".toList).flatMap escCharSpec
    ∧ escapeToken "A_B*C".toList = "A\\_B\\*C".toList
    ∧ escapeToken "$$".toList = "\\$\\$".toList :=
  render_escaping "A_B*C".toList "white".toList (by decide)

/-- C8: every non-final position of the rendered window gets the plain white
background, the final position gets the distinct highlight color `#FF9999`
(so the two differ), and the spec's example `render(["hi","there"])` is two
cells with only the second highlighted. -/
theorem render_highlight (n i : Nat) (hi : i < n - 1) :
    backgroundColor i n = "white".toList
    ∧ backgroundColor (n - 1) n = "#FF9999".toList
    ∧ backgroundColor i n ≠ backgroundColor (n - 1) n
    ∧ tokens_to_html ["hi".toList, "there".toList] 150
        = renderToken "hi".toList "white".toList
          ++ renderToken "there".toList "#FF9999".toList := by
  have h1 : backgroundColor i n = "white".toList := by
    unfold backgroundColor
    rw [if_pos (by omega)]
  have h2 : backgroundColor (n - 1) n = "#FF9999".toList := by
    unfold backgroundColor
    rw [if_neg (fun hcon => hcon rfl)]
  refine ⟨h1, h2, ?_, rfl⟩
  rw [h1, h2]
  decide

/-- Witness for the highlight claim in a two-token window: position 0 is
plain, position 1 is highlighted. -/
theorem render_highlight_witness :
    backgroundColor 0 2 = "white".toList
    ∧ backgroundColor (2 - 1) 2 = "#FF9999".toList
    ∧ backgroundColor 0 2 ≠ backgroundColor (2 - 1) 2
    ∧ tokens_to_html ["hi".toList, "there".toList] 150
        = renderToken "hi".toList "white".toList
          ++ renderToken "there".toList "#FF9999".toList :=
  render_highlight 2 0 (by decide)

/-- Membership invariant of the grouping fold: the accumulated key list
holds exactly the keys seen so far. -/
theorem mem_firstSeen_fold {L : Type} [DecidableEq L] (ls : List L)
    (acc : List L) (x : L) :
    (x ∈ ls.foldl (fun acc l => if acc.contains l then acc else acc ++ [l]) acc)
      ↔ x ∈ acc ∨ x ∈ ls := by
  induction ls generalizing acc with
  | nil => simp
  | cons a as ih =>
    simp only [List.foldl_cons]
    by_cases h : acc.contains a = true
    · rw [if_pos h, ih]
      have ha : a ∈ acc := by simpa using h
      constructor
      · rintro (hx | hx)
        · exact Or.inl hx
        · exact Or.inr (List.mem_cons_of_mem _ hx)
      · rintro (hx | hx)
        · exact Or.inl hx
        · rcases List.mem_cons.mp hx with rfl | hx
          · exact Or.inl ha
          · exact Or.inr hx
    · rw [if_neg h, ih]
      simp only [List.mem_append, List.mem_singleton, List.mem_cons]
      tauto

/-- The distinct-key list holds exactly the labels present in the
assignment. -/
theorem mem_firstSeen {L : Type} [DecidableEq L] (labels : List L) (x : L) :
    x ∈ firstSeen labels ↔ x ∈ labels := by
  unfold firstSeen
  rw [mem_firstSeen_fold]
  simp

/-- Deduplication invariant of the grouping fold. -/
theorem nodup_firstSeen_fold {L : Type} [DecidableEq L] (ls : List L)
    (acc : List L) (hacc : acc.Nodup) :
    (ls.foldl (fun acc l => if acc.contains l then acc else acc ++ [l]) acc).Nodup := by
  induction ls generalizing acc with
  | nil => exact hacc
  | cons a as ih =>
    simp only [List.foldl_cons]
    by_cases h : acc.contains a = true
    · rw [if_pos h]
      exact ih acc hacc
    · rw [if_neg h]
      apply ih
      have ha : a ∉ acc := by simpa using h
      simp [List.nodup_append, hacc, ha]

/-- The grouping dict never stores a key twice. -/
theorem nodup_firstSeen {L : Type} [DecidableEq L] (labels : List L) :
    (firstSeen labels).Nodup :=
  nodup_firstSeen_fold labels [] List.nodup_nil

/-- The ranker's comparison is transitive. -/
theorem rankLE_trans {L : Type} [DecidableEq L] (labels : List L) :
    ∀ a b c : L,
      decide (groupSize labels b ≤ groupSize labels a) = true →
      decide (groupSize labels c ≤ groupSize labels b) = true →
      decide (groupSize labels c ≤ groupSize labels a) = true := by
  intro a b c hab hbc
  simp only [decide_eq_true_eq] at *
  omega

/-- The ranker's comparison is total. -/
theorem rankLE_total {L : Type} [DecidableEq L] (labels : List L) :
    ∀ a b : L,
      (decide (groupSize labels b ≤ groupSize labels a)
        || decide (groupSize labels a ≤ groupSize labels b)) = true := by
  intro a b
  simp only [Bool.or_eq_true, decide_eq_true_eq]
  omega

/-- C5: for a non-empty assignment the rank table is a permutation of the
duplicate-free list of exactly the labels present (a bijection from dense
ranks `0..K-1` onto the distinct labels, no rank skipped), rank 0 holds a
label of maximal group size, and the spec's end-to-end example
`{0:"a", 1:"b", 2:"a"}` evaluates to groups `a ↦ [0,2]`, `b ↦ [1]` and rank
table `["a", "b"]`. -/
theorem ranker_bijection {L : Type} [DecidableEq L] (labels : List L)
    (hne : labels ≠ []) :
    (new_index_old_index labels).Perm (firstSeen labels)
    ∧ (new_index_old_index labels).Nodup
    ∧ (∀ l, l ∈ firstSeen labels ↔ l ∈ labels)
    ∧ (∃ top, (new_index_old_index labels).head? = some top
        ∧ ∀ l ∈ labels, groupSize labels l ≤ groupSize labels top)
    ∧ new_index_old_index ["a", "b", "a"] = ["a", "b"]
    ∧ cluster_to_tokens ["a", "b", "a"] "a" = [0, 2]
    ∧ cluster_to_tokens ["a", "b", "a"] "b" = [1] := by
  have hperm : (new_index_old_index labels).Perm (firstSeen labels) :=
    List.mergeSort_perm (firstSeen labels) _
  have hsorted := List.sorted_mergeSort (rankLE_trans labels) (rankLE_total labels)
    (firstSeen labels)
  have hex : new_index_old_index ["a", "b", "a"] = ["a", "b"] := by
    show List.mergeSort (firstSeen ["a", "b", "a"]) _ = ["a", "b"]
    have hfs : firstSeen ["a", "b", "a"] = ["a", "b"] := rfl
    rw [hfs]
    exact List.mergeSort_of_sorted (by decide)
  refine ⟨hperm, hperm.nodup_iff.mpr (nodup_firstSeen labels),
    mem_firstSeen labels, ?_, hex, by decide, by decide⟩
  rcases hni : new_index_old_index labels with _ | ⟨top, rest⟩
  · exfalso
    rcases labels with _ | ⟨a, as⟩
    · exact hne rfl
    · have : a ∈ firstSeen (a :: as) := (mem_firstSeen _ a).mpr (List.mem_cons_self a as)
      have : a ∈ new_index_old_index (a :: as) := hperm.mem_iff.mpr this
      rw [hni] at this
      exact absurd this (List.not_mem_nil a)
  · refine ⟨top, rfl, ?_⟩
    intro l hl
    have hl2 : l ∈ new_index_old_index labels :=
      hperm.mem_iff.mpr ((mem_firstSeen labels l).mpr hl)
    rw [hni] at hl2
    rcases List.mem_cons.mp hl2 with rfl | hl3
    · exact Nat.le_refl _
    · have := hsorted
      rw [show List.mergeSort (firstSeen labels)
            (fun a b => decide (groupSize labels b ≤ groupSize labels a))
          = new_index_old_index labels from rfl, hni] at this
      have hp := (List.pairwise_cons.mp this).1 l hl3
      simpa using hp

/-- Witness for the ranker-bijection claim at the spec's example
assignment. -/
theorem ranker_bijection_witness :
    (new_index_old_index ["a", "b", "a"]).Perm (firstSeen ["a", "b", "a"])
    ∧ (new_index_old_index ["a", "b", "a"]).Nodup
    ∧ (∀ l, l ∈ firstSeen ["a", "b", "a"] ↔ l ∈ ["a", "b", "a"])
    ∧ (∃ top, (new_index_old_index ["a", "b", "a"]).head? = some top
        ∧ ∀ l ∈ ["a", "b", "a"],
            groupSize ["a", "b", "a"] l ≤ groupSize ["a", "b", "a"] top)
    ∧ new_index_old_index ["a", "b", "a"] = ["a", "b"]
    ∧ cluster_to_tokens ["a", "b", "a"] "a" = [0, 2]
    ∧ cluster_to_tokens ["a", "b", "a"] "b" = [1] :=
  ranker_bijection ["a", "b", "a"] (by decide)

/-- C7: labels with equal group sizes keep their first-seen relative order
in the rank table (stable tie-break), and the ranker is deterministic:
re-running it on the same assignment yields the same table. -/
theorem ranker_tiebreak {L : Type} [DecidableEq L] (labels : List L) (a b : L)
    (hsize : groupSize labels a = groupSize labels b)
    (hsub : List.Sublist [a, b] (firstSeen labels)) :
    List.Sublist [a, b] (new_index_old_index labels)
    ∧ ∀ labels2, labels2 = labels →
        new_index_old_index labels2 = new_index_old_index labels := by
  constructor
  · exact List.pair_sublist_mergeSort (rankLE_trans labels) (rankLE_total labels)
      (by simp [hsize]) hsub
  · intro labels2 h
    rw [h]

/-- Witness for the tie-break claim: in `[5, 6, 5, 6, 7]` the labels 5 and 6
both have two members, and they stay in first-seen order in the table. -/
theorem ranker_tiebreak_witness :
    List.Sublist [5, 6] (new_index_old_index [5, 6, 5, 6, 7])
    ∧ ∀ labels2, labels2 = [5, 6, 5, 6, 7] →
        new_index_old_index labels2 = new_index_old_index [5, 6, 5, 6, 7] :=
  ranker_tiebreak [5, 6, 5, 6, 7] 5 6 (by decide) (by decide)

end QuantaClusters
